import Mathlib

/-!
Shallow embedding of `pydepgraph` (file `pydepgraph/__init__.py`) in Lean 4.

Python strings are modelled as `List Char` (`PyStr`); Python dicts (which
preserve insertion order) as association lists `PyDict α := List (PyStr × α)`
with an update-or-append insert. Python floats are modelled as `ℚ`: none of
the verified properties depends on rounding behaviour. Functions keep the
names of the Python functions they embed.
-/

abbrev PyStr := List Char

abbrev PyDict (α : Type) := List (PyStr × α)

/-- `str.data` of a Lean string literal, used to write concrete `PyStr` values. -/
def pys (s : String) : PyStr := s.data

/-- Python `s.split(sep)` for a one-character separator `sep`
(`"".split(".") == [""]`, `"a.".split(".") == ["a",""]`, …). -/
def pySplit (sep : Char) : PyStr → List PyStr
  | [] => [[]]
  | c :: rest =>
    if c = sep then [] :: pySplit sep rest
    else
      match pySplit sep rest with
      | [] => [[c]]
      | g :: gs => (c :: g) :: gs

/-- Python `sep.join(parts)` for a one-character separator. -/
def pyJoin (sep : Char) : List PyStr → PyStr
  | [] => []
  | [p] => p
  | p :: ps => p ++ sep :: pyJoin sep ps

/-- Python dict assignment `d[k] = v`: replace in place if the key exists,
append otherwise. -/
def pyDictInsert {α : Type} : PyDict α → PyStr → α → PyDict α
  | [], k, v => [(k, v)]
  | kv :: rest, k, v => if kv.1 = k then (k, v) :: rest else kv :: pyDictInsert rest k v

/-- Python `list(d)` / `d.keys()`. -/
def pyKeys {α : Type} (d : PyDict α) : List PyStr := d.map Prod.fst

/-- Python `d[k]` with a fallback value for a missing key (the embedded
callers only look up keys they have inserted). -/
def pyGetD {α : Type} (d : PyDict α) (k : PyStr) (dfl : α) : α :=
  match d.find? (fun kv => kv.1 = k) with
  | some kv => kv.2
  | none => dfl

/-- Python `k in d` (dict key membership). -/
def pyMem {α : Type} (k : PyStr) (d : PyDict α) : Bool := d.any (fun kv => kv.1 = k)

/-- Embeds `in_package(mod, pkg)`: `mod == pkg or mod.startswith(pkg + ".")`. -/
def in_package (mod pkg : PyStr) : Bool :=
  mod = pkg || (pkg ++ ['.']).isPrefixOf mod

/-- One of the two symmetric loops of `distance`: for `i` in
`xrange(len(segs), 0, -1)`, stop when `in_package pkg (".".join(segs[:i]))`,
counting one hop per non-matching `i`. -/
def distLoop (pkg : PyStr) (segs : List PyStr) : Nat → Nat
  | 0 => 0
  | i + 1 =>
    if in_package pkg (pyJoin '.' (segs.take (i + 1))) then 0
    else distLoop pkg segs i + 1

/-- Embeds `distance(pkg1, pkg2)`. -/
def distance (pkg1 pkg2 : PyStr) : Nat :=
  let split1 := pySplit '.' pkg1
  let split2 := pySplit '.' pkg2
  distLoop pkg1 split2 split2.length + distLoop pkg2 split1 split1.length

/-- The ordered list of `(source, target)` pairs inspected by
`get_max_dist` and `draw_arrows`: edges whose target is also a graph key. -/
def retainedEdges (graph : PyDict (List PyStr)) : List (PyStr × PyStr) :=
  graph.flatMap (fun kv => (kv.2.filter (fun t => pyMem t graph)).map (fun t => (kv.1, t)))

/-- Embeds `get_max_dist(graph)`: maximum `distance` over retained edges,
`0` when there are none. -/
def get_max_dist (graph : PyDict (List PyStr)) : Nat :=
  (retainedEdges graph).foldl (fun m e => max m (distance e.1 e.2)) 0

/-- The whitespace characters of Python `str.split()` / `str.strip()`. -/
def isPySpace (c : Char) : Bool :=
  c = ' ' || c = '\t' || c = '\n' || c = '\r' || c = '\x0b' || c = '\x0c'

/-- Python `s.split()` (no argument): split on runs of whitespace,
dropping empty pieces. `cur` holds the current word reversed. -/
def pySplitWsAux (cur : PyStr) : PyStr → List PyStr
  | [] => if cur = [] then [] else [cur.reverse]
  | c :: rest =>
    if isPySpace c then
      if cur = [] then pySplitWsAux [] rest else cur.reverse :: pySplitWsAux [] rest
    else pySplitWsAux (c :: cur) rest

def pySplitWs (s : PyStr) : List PyStr := pySplitWsAux [] s

/-- Python `s.strip()`: remove leading and trailing whitespace. -/
def pyStrip (s : PyStr) : PyStr :=
  ((s.dropWhile isPySpace).reverse.dropWhile isPySpace).reverse

/-- Python `content.replace("\\\n", "")` in `build_graph`: delete every
(left-to-right, non-overlapping) occurrence of a backslash followed by a
newline. -/
def stripBackslashNewline : PyStr → PyStr
  | '\\' :: '\n' :: rest => stripBackslashNewline rest
  | c :: rest => c :: stripBackslashNewline rest
  | [] => []

/-- Embeds `adjust(name)`: replace `/` by `.`, strip a trailing `.py`,
strip a trailing `.__init__`. -/
def adjust (name : PyStr) : PyStr :=
  let name := name.map (fun c => if c = '/' then '.' else c)
  let name := if (pys ".py").isSuffixOf name then name.take (name.length - 3) else name
  if (pys ".__init__").isSuffixOf name then name.take (name.length - 9) else name

/-- Embeds `escape(name)`: replace `.` and `-` by `_`. -/
def escape (name : PyStr) : PyStr :=
  (name.map (fun c => if c = '.' then '_' else c)).map (fun c => if c = '-' then '_' else c)

/-- Embeds `label(name)`: replace each `.` by the three characters `.\n`
(a literal backslash and `n` in the Python source). -/
def label (name : PyStr) : PyStr :=
  name.flatMap (fun c => if c = '.' then ['.', '\\', 'n'] else [c])

/-- Embeds `cat(package, name)`. -/
def cat (package name : PyStr) : PyStr :=
  if name = [] then package
  else if package = [] then name
  else package ++ '.' :: name

/-- The loop body of `find_best_cluster`: update `best` with `cluster`. -/
def fbcStep (name : PyStr) (best : Option PyStr) (cluster : PyStr) : Option PyStr :=
  if in_package name cluster then
    match best with
    | none => some cluster
    | some b => if in_package cluster b then some cluster else best
  else best

/-- Embeds `find_best_cluster(name, clusters)`. -/
def find_best_cluster (name : PyStr) (clusters : List PyStr) : Option PyStr :=
  clusters.foldl (fbcStep name) none

/-- Embeds `build_graph_clusters(graph, clusters, self_edges)`. -/
def build_graph_clusters (graph : PyDict (List PyStr)) (clusters : List PyStr)
    (self_edges : Bool) : PyDict (List PyStr) :=
  graph.foldl
    (fun gc kv =>
      match find_best_cluster kv.1 clusters with
      | none => gc
      | some source =>
        let gc := if pyMem source gc then gc else pyDictInsert gc source []
        let ts := kv.2.foldl
          (fun ts name_ =>
            match find_best_cluster name_ clusters with
            | none => ts
            | some target =>
              if (self_edges || target ≠ source) && target ∉ ts then ts ++ [target]
              else ts)
          (pyGetD gc source [])
        pyDictInsert gc source ts)
    []

/-- The inner loop of `build_graph` on one file's text: the ordered,
duplicate-free list of import targets extracted from `content`. -/
def importTargets (content : PyStr) : List PyStr :=
  (pySplit '\n' (stripBackslashNewline content)).foldl
    (fun acc rawline =>
      let line := pySplitWs rawline
      if pys "import" ∉ line then acc
      else if line.headI = pys "import" then
        (pySplit ',' (pyJoin ' ' line.tail)).foldl
          (fun acc name =>
            let name := (pySplit ' ' (pyStrip name)).headI
            if adjust name ∈ acc then acc else acc ++ [adjust name])
          acc
      else if line.headI = pys "from" then
        if adjust line.tail.headI ∈ acc then acc else acc ++ [adjust line.tail.headI]
      else acc)
    []

/-- Embeds `build_graph(files)`. A file is a triple
`(relative path, root, text content)`; reading the content from disk is the
external text-provider collaborator, so the content is supplied directly. -/
def build_graph (files : List (PyStr × PyStr × PyStr)) : PyDict (List PyStr) :=
  files.foldl (fun graph f => pyDictInsert graph (adjust f.1) (importTargets f.2.2)) []

/-- Embeds the module-level constant `DRAW_MODES`. -/
def DRAW_MODES : List PyStr :=
  [pys "NO_CLUSTERS", pys "CLUSTERS", pys "ONLY_CLUSTERS",
   pys "ONLY_CLUSTERS_WITH_SELF_EDGES"]

/-- Python string `<` / `sorted`: lexicographic comparison by code point. -/
def strLe : PyStr → PyStr → Bool
  | [], _ => true
  | _ :: _, [] => false
  | a :: as, b :: bs => if a < b then true else if b < a then false else strLe as bs

/-- Python tuple comparison for `(name, path)` cluster pairs (`clusters.sort()`). -/
def clusterLe (a b : PyStr × PyStr) : Bool :=
  if a.1 = b.1 then strLe a.2 b.2 else strLe a.1 b.1

/-- Insert into a sorted list (the auxiliary step of `pySorted`). -/
def insertLe (le : α → α → Bool) (a : α) : List α → List α
  | [] => [a]
  | b :: bs => if le a b then a :: b :: bs else b :: insertLe le a bs

/-- Python `sorted(...)` / `list.sort()`: a sort by the comparison `le`.
Modelled by insertion sort, which is structurally recursive (so concrete
instances evaluate inside the kernel). -/
def pySorted (le : α → α → Bool) : List α → List α
  | [] => []
  | a :: as => insertLe le a (pySorted le as)

/-- One emission of `draw_graph`: each Python `string += ...` appends one
piece; the final string is the concatenation of the rendered pieces. -/
inductive Piece where
  | openScope (cluster : PyStr)
  | closeScope
  | clusterDecl (cluster : PyStr) (color : PyStr)
  | nodeDecl (node : PyStr) (color : PyStr)
deriving DecidableEq, Repr

/-- The exact text each `draw_graph` emission appends to `string`. -/
def renderPiece : Piece → PyStr
  | .openScope c => pys "\nsubgraph cluster_" ++ escape c ++ pys " \x7b\n"
  | .closeScope => pys "\x7d\n\n"
  | .clusterDecl c col =>
      escape c ++ pys " [label=\"" ++ label c ++ pys "\",fillcolor=\"#" ++ col ++ pys "\"];\n"
  | .nodeDecl n col =>
      escape n ++ pys " [label=\"" ++ label n ++ pys "\",fillcolor=\"#" ++ col ++ pys "\"];\n"

/-- The body of `draw_graph`'s `for name in sorted(graph)` loop. The state is
`(c_opened, clusters, pieces)`; removing every value picked by the two list
comprehensions amounts to filtering on the comprehension's predicate. -/
def drawGraphStep (colors : PyDict PyStr) (draw_mode : PyStr)
    (st : List (PyStr × PyStr) × List (PyStr × PyStr) × List Piece) (name : PyStr) :
    List (PyStr × PyStr) × List (PyStr × PyStr) × List Piece :=
  let c_opened := st.1
  let clusters := st.2.1
  let pieces := st.2.2
  let toClose := c_opened.filter (fun x => !(in_package name x.1))
  let c_opened := c_opened.filter (fun x => in_package name x.1)
  let pieces := pieces ++
    (if draw_mode = pys "CLUSTERS" then toClose.map (fun _ => Piece.closeScope) else [])
  let toOpen := clusters.filter (fun x => in_package name x.1)
  let pieces := pieces ++ toOpen.flatMap (fun x =>
    if draw_mode = pys "CLUSTERS" then [Piece.openScope x.1]
    else if draw_mode = pys "ONLY_CLUSTERS" ∨ draw_mode = pys "ONLY_CLUSTERS_WITH_SELF_EDGES" then
      if pyMem x.1 colors then [Piece.clusterDecl x.1 (pyGetD colors x.1 [])] else []
    else [])
  let c_opened := c_opened ++ toOpen
  let clusters := clusters.filter (fun x => !(in_package name x.1))
  let pieces := pieces ++
    (if draw_mode = pys "NO_CLUSTERS" ∨ draw_mode = pys "CLUSTERS" then
      [Piece.nodeDecl name (pyGetD colors name [])]
    else [])
  (c_opened, clusters, pieces)

/-- The full `for name in sorted(graph)` loop of `draw_graph`. -/
def drawGraphLoop (graph : PyDict (List PyStr)) (clusters : List (PyStr × PyStr))
    (colors : PyDict PyStr) (draw_mode : PyStr) :
    List (PyStr × PyStr) × List (PyStr × PyStr) × List Piece :=
  (pySorted strLe (pyKeys graph)).foldl (drawGraphStep colors draw_mode) ([], clusters, [])

/-- Embeds `draw_graph(graph, clusters, colors, draw_mode)` at the level of
emitted pieces. Returns the pieces and — since the Python function mutates the
`clusters` list it is handed — the final contents of `clusters`. -/
def draw_graph_pieces (graph : PyDict (List PyStr)) (clusters : List (PyStr × PyStr))
    (colors : PyDict PyStr) (draw_mode : PyStr) : List Piece × List (PyStr × PyStr) :=
  let st := drawGraphLoop graph clusters colors draw_mode
  (st.2.2 ++
    (if draw_mode = pys "CLUSTERS" then List.replicate st.1.length Piece.closeScope else []),
   st.2.1)

/-- Embeds `draw_graph`: the returned string and the final `clusters` list. -/
def draw_graph (graph : PyDict (List PyStr)) (clusters : List (PyStr × PyStr))
    (colors : PyDict PyStr) (draw_mode : PyStr) : PyStr × List (PyStr × PyStr) :=
  let pc := draw_graph_pieces graph clusters colors draw_mode
  ((pc.1.map renderPiece).flatten, pc.2)

/-- The `(source, target, weight)` triples emitted by `draw_arrows`, in
emission order. On retained edges `distance ≤ get_max_dist`, so the Python
exponent `max_dist - distance(name, name_)` is the natural subtraction. -/
def arrowTriples (graph : PyDict (List PyStr)) : List (PyStr × PyStr × Nat) :=
  let max_dist := get_max_dist graph
  (retainedEdges graph).map (fun e => (e.1, e.2, 2 ^ (max_dist - distance e.1 e.2)))

/-- Python `'%d' % n` for a natural number. -/
def natToStr (n : Nat) : PyStr := (Nat.repr n).data

/-- Embeds `draw_arrows(graph)`. -/
def draw_arrows (graph : PyDict (List PyStr)) : PyStr :=
  (arrowTriples graph).flatMap (fun t =>
    escape t.1 ++ pys " -> " ++ escape t.2.1 ++ pys " [weight=" ++ natToStr t.2.2 ++ pys "];\n")

/-- Embeds `draw_begin_graph(concentrate)`. -/
def draw_begin_graph (concentrate : Bool) : PyStr :=
  pys "digraph G \x7b\n" ++ (if concentrate then pys "concentrate=true\n" else []) ++
    pys "node [style=filled,fontname=Helvetica,fontsize=16];\n"

/-- Embeds `draw_end_graph()`. -/
def draw_end_graph : PyStr := pys "\x7d\n"

/-- Python `int(q)` on a float: truncation toward zero. -/
def pyInt (q : ℚ) : ℤ := if 0 ≤ q then ⌊q⌋ else ⌈q⌉

/-- `colorsys.hsv_to_rgb(h, s, v)`, exactly, over `ℚ`. -/
def hsv_to_rgb (h s v : ℚ) : ℚ × ℚ × ℚ :=
  if s = 0 then (v, v, v)
  else
    let i : ℤ := pyInt (h * 6)
    let f : ℚ := h * 6 - (i : ℚ)
    let p := v * (1 - s)
    let q := v * (1 - s * f)
    let t := v * (1 - s * (1 - f))
    match (i % 6).toNat with
    | 0 => (v, t, p)
    | 1 => (q, v, p)
    | 2 => (p, v, t)
    | 3 => (p, q, v)
    | 4 => (t, p, v)
    | _ => (v, p, q)

/-- Python-2 `'%02x' % x`: truncate to an integer, format as lowercase hex,
zero-padded to width two. -/
def hex2 (q : ℚ) : PyStr :=
  let digits := Nat.toDigits 16 (pyInt q).toNat
  if digits.length < 2 then '0' :: digits else digits

/-- Embeds `rgb(hue)`: HSV with saturation 0.6 and value 0.8, each channel
scaled by 256 and formatted as two hex digits. -/
def rgb (hue : ℚ) : PyStr :=
  let c := hsv_to_rgb hue (6 / 10) (8 / 10)
  hex2 (c.1 * 256) ++ hex2 (c.2.1 * 256) ++ hex2 (c.2.2 * 256)

/-- The one Python exception the embedded code can raise:
`ZeroDivisionError`, from `color_label`'s divisions by `damping`. -/
inductive PyError where
  | zeroDivisionError
deriving DecidableEq, Repr

/-- The result of running a piece of Python code: `none` when the code never
terminates, `some (Except.error e)` when it raises the uncaught exception
`e` (producing no value), `some (Except.ok a)` when it returns `a`. -/
abbrev PyRes (α : Type) := Option (Except PyError α)

/-- Sequencing of Python runs: divergence and uncaught exceptions
propagate past the rest of the computation. -/
def pyBind {α β : Type} (r : PyRes α) (f : α → PyRes β) : PyRes β :=
  match r with
  | none => none
  | some (Except.error e) => some (Except.error e)
  | some (Except.ok a) => f a

/-- The dict-filling loop shared by both recursive branches of
`color_label`: `for name, color in sub.items(): ret[cat(word, name)] = color`. -/
def insertAll (word : PyStr) (sub : PyDict PyStr) (ret : PyDict PyStr) : PyDict PyStr :=
  sub.foldl (fun ret kv => pyDictInsert ret (cat word kv.1) kv.2) ret

/-- A well-formed dotted hierarchical name: every dot-separated segment is
non-empty (the spec's HierarchicalName invariant). -/
def validName (n : PyStr) : Prop := ∀ seg ∈ pySplit '.' n, seg ≠ []

instance (n : PyStr) : Decidable (validName n) := by
  unfold validName
  infer_instance

/-- The `for word in first_level` loop of `color_label`'s multi-group
branch: recurse per group over its allotted sub-interval, re-prepend the
group's word to the recursive keys, and advance `cur` by the group's block
plus the damping gap. Divergence or an exception in a recursive call
aborts the loop. -/
def colorFold (recur : List PyStr → ℚ → ℚ → ℚ → PyRes (PyDict PyStr))
    (damping step infra_dist : ℚ) (splits : List (List PyStr)) :
    List PyStr → PyDict PyStr × ℚ → PyRes (PyDict PyStr × ℚ)
  | [], st => some (Except.ok st)
  | word :: ws, st =>
    let to_recur := (splits.filter (fun x => x.headI = word)).map
      (fun x => pyJoin '.' x.tail)
    pyBind (recur to_recur st.2 (st.2 + step * (to_recur.length : ℚ)) damping)
      (fun sub =>
        colorFold recur damping step infra_dist splits ws
          (insertAll word sub st.1, st.2 + step * (to_recur.length : ℚ) + infra_dist))

/-- The non-degenerate body of `color_label` (the part after the two base
cases), with the recursive call abstracted as `recur`: split the names, take
the sorted distinct first segments; on a single first level recurse over the
unchanged interval and re-prepend; otherwise compute
`step = ((stop - start) / len(names)) / damping`, which RAISES
`ZeroDivisionError` when `damping == 0.0` (the only zero divisor reachable
here: every call has `len(names) ≥ 2` and, in this branch,
`len(first_level) ≥ 2`), then recurse per group. -/
def color_labelMain (recur : List PyStr → ℚ → ℚ → ℚ → PyRes (PyDict PyStr))
    (names : List PyStr) (start stop damping : ℚ) : PyRes (PyDict PyStr) :=
  let splits := names.map (pySplit '.')
  let first_level := pySorted strLe (splits.map List.headI).dedup
  if first_level.length = 1 then
    pyBind (recur (splits.map (fun x => pyJoin '.' x.tail)) start stop damping)
      (fun sub => some (Except.ok (insertAll first_level.headI sub [])))
  else if damping = 0 then some (Except.error PyError.zeroDivisionError)
  else
    let step := ((stop - start) / (names.length : ℚ)) / damping
    let infra_dist := (damping - 1) * (stop - start) / (first_level.length : ℚ) / damping
    pyBind (colorFold recur damping step infra_dist splits first_level ([], start))
      (fun st => some (Except.ok st.1))

/-- Fuel-indexed embedding of `color_label(names, start, stop, damping)`.
The Python function is general recursion with no structural measure (it
diverges on some inputs, e.g. `["a", "a"]`); `none` means the fuel ran out,
i.e. the recursion did not terminate within `fuel` nested calls. -/
def color_labelF : Nat → List PyStr → ℚ → ℚ → ℚ → PyRes (PyDict PyStr)
  | 0, _, _, _, _ => none
  | fuel + 1, names, start, stop, damping =>
    if names = [] then some (Except.ok [])
    else if names.length = 1 then some (Except.ok [(names.headI, rgb start)])
    else color_labelMain (color_labelF fuel) names start stop damping

/-- Total number of dot-segments over a list of names: the termination
measure of `color_label`'s recursion. -/
def segCount (names : List PyStr) : Nat :=
  (names.map (fun n => (pySplit '.' n).length)).sum

/-- `color_label` run with enough fuel: `segCount names + 1` nested calls
suffice whenever the Python recursion terminates (proved below for
duplicate-free lists of well-formed names). -/
def color_label (names : List PyStr) (start stop damping : ℚ) : PyRes (PyDict PyStr) :=
  color_labelF (segCount names + 1) names start stop damping

/-- Embeds `do_graph`. The filesystem walk (`compute_list`) is the external
discovery collaborator, so its two results are taken as inputs: `files` with
their text contents, and `autoclusters`. The color map is computed before
the first `stdout` write, so if `color_label` diverges or raises, the run
produces no output at all (`none` / `Except.error`). -/
def do_graph (files : List (PyStr × PyStr × PyStr)) (autoclusters : List (PyStr × PyStr))
    (clustersArg : Option (List PyStr)) (draw_mode : PyStr) (concentrate : Bool) :
    PyRes PyStr :=
  let clusters := match clustersArg with
    | none => autoclusters
    | some cs => cs.map (fun x => (x, ([] : PyStr)))
  let clusters := pySorted clusterLe clusters
  let graph := build_graph files
  let graph_clusters := build_graph_clusters graph (clusters.map Prod.fst)
    (draw_mode = pys "ONLY_CLUSTERS_WITH_SELF_EDGES")
  let colorsRes :=
    if draw_mode = pys "NO_CLUSTERS" ∨ draw_mode = pys "CLUSTERS" then
      color_label (pySorted strLe (pyKeys graph)) 0 1 3
    else
      color_label (pySorted strLe (pyKeys graph_clusters)) 0 1 3
  pyBind colorsRes (fun colors =>
    let arrows :=
      if draw_mode = pys "NO_CLUSTERS" ∨ draw_mode = pys "CLUSTERS" then draw_arrows graph
      else draw_arrows graph_clusters
    some (Except.ok (draw_begin_graph concentrate ++
      (draw_graph graph clusters colors draw_mode).1 ++ arrows ++ draw_end_graph)))

/-- Python list indexing `l[i]`: negative indices count from the end;
`none` is an `IndexError`. -/
def pyListGet {α : Type} (l : List α) (i : ℤ) : Option α :=
  if 0 ≤ i then l.get? i.toNat
  else if 0 ≤ i + l.length then l.get? (i + l.length).toNat
  else none

/-- Embeds the tail of `main`: selecting `DRAW_MODES[args.graph]` and either
aborting with exit code 1 (on `IndexError`, before any output is written) or
running `do_graph`, whose return value is the full text written to stdout. -/
def main_run (g : ℤ) (files : List (PyStr × PyStr × PyStr))
    (autoclusters : List (PyStr × PyStr)) (clustersArg : Option (List PyStr))
    (concentrate : Bool) : Except Nat (PyRes PyStr) :=
  match pyListGet DRAW_MODES g with
  | none => Except.error 1
  | some mode => Except.ok (do_graph files autoclusters clustersArg mode concentrate)

/-- A scope-open emission (`subgraph cluster_... {`). -/
def isOpenPiece : Piece → Bool
  | .openScope _ => true
  | _ => false

/-- A scope-close emission (a closing brace). -/
def isClosePiece : Piece → Bool
  | .closeScope => true
  | _ => false

/-! ## Theorems -/

/-- `insertLe` produces a permutation of consing. -/
theorem insertLe_perm (le : α → α → Bool) (a : α) :
    ∀ (l : List α), (insertLe le a l).Perm (a :: l) := by
  intro l
  induction l with
  | nil => exact List.Perm.refl _
  | cons b bs ih =>
    rw [insertLe]
    by_cases h : le a b = true
    · rw [if_pos h]
    · rw [if_neg h]
      exact (List.Perm.cons b ih).trans (List.Perm.swap a b bs)

/-- `pySorted` is a permutation of its input. -/
theorem pySorted_perm (le : α → α → Bool) : ∀ (l : List α), (pySorted le l).Perm l := by
  intro l
  induction l with
  | nil => exact List.Perm.refl _
  | cons a as ih =>
    exact (insertLe_perm le a (pySorted le as)).trans (List.Perm.cons a ih)

/-- Each step of `draw_graph`'s loop filters out of `clusters` exactly the
clusters containing the current node, whatever the draw mode. -/
theorem drawGraphStep_clusters (colors : PyDict PyStr) (draw_mode : PyStr)
    (st : List (PyStr × PyStr) × List (PyStr × PyStr) × List Piece) (name : PyStr) :
    (drawGraphStep colors draw_mode st name).2.1 =
      st.2.1.filter (fun x => !(in_package name x.1)) := by
  rfl

/-- Folding the loop body over any node list leaves in `clusters` exactly the
clusters containing none of the nodes. -/
theorem drawGraphFold_clusters (colors : PyDict PyStr) (draw_mode : PyStr) :
    ∀ (names : List PyStr) (co cl : List (PyStr × PyStr)) (ps : List Piece),
    (names.foldl (drawGraphStep colors draw_mode) (co, cl, ps)).2.1 =
      cl.filter (fun c => names.all (fun n => !(in_package n c.1))) := by
  intro names
  induction names with
  | nil => intro co cl ps; simp
  | cons n ns ih =>
    intro co cl ps
    rw [List.foldl_cons]
    have hstep : drawGraphStep colors draw_mode (co, cl, ps) n =
        ((drawGraphStep colors draw_mode (co, cl, ps) n).1,
         cl.filter (fun x => !(in_package n x.1)),
         (drawGraphStep colors draw_mode (co, cl, ps) n).2.2) := by
      rw [← drawGraphStep_clusters colors draw_mode (co, cl, ps) n]
    rw [hstep, ih, List.filter_filter]
    apply List.filter_congr
    intro c _
    simp [Bool.and_comm]

/-- Claim C9: in every draw mode, `draw_graph` returns (i.e. the Python
function leaves in the caller's mutated `clusters` list) exactly the clusters
that contain no node of the graph: every cluster containing at least one node
has been removed. -/
theorem C9_draw_graph_depletes_clusters (graph : PyDict (List PyStr))
    (clusters : List (PyStr × PyStr)) (colors : PyDict PyStr) (draw_mode : PyStr) :
    (draw_graph graph clusters colors draw_mode).2 =
      clusters.filter (fun c => !((pyKeys graph).any (fun n => in_package n c.1))) := by
  show (drawGraphLoop graph clusters colors draw_mode).2.1 = _
  rw [drawGraphLoop, drawGraphFold_clusters]
  apply List.filter_congr
  intro c _
  rw [← List.not_any_eq_all_not, Bool.eq_iff_iff]
  simp only [Bool.not_eq_true', List.any_eq_false]
  constructor
  · intro h n hn
    exact h n ((pySorted_perm strLe (pyKeys graph)).mem_iff.mpr hn)
  · intro h n hn
    exact h n ((pySorted_perm strLe (pyKeys graph)).mem_iff.mp hn)

/-- Splitting a list by a Boolean predicate preserves its length. -/
theorem length_filter_not_add_length_filter (p : α → Bool) (l : List α) :
    (l.filter (fun x => !(p x))).length + (l.filter p).length = l.length := by
  induction l with
  | nil => simp
  | cons a l ih =>
    by_cases h : p a <;> simp [h, ← ih] <;> omega

/-- One loop iteration of `draw_graph` in `CLUSTERS` mode preserves the
balance invariant: closes emitted so far plus currently open scopes equal
opens emitted so far. -/
theorem drawGraphStep_balance (colors : PyDict PyStr) (name : PyStr)
    (st : List (PyStr × PyStr) × List (PyStr × PyStr) × List Piece)
    (h : st.2.2.countP isClosePiece + st.1.length = st.2.2.countP isOpenPiece) :
    (drawGraphStep colors (pys "CLUSTERS") st name).2.2.countP isClosePiece +
        (drawGraphStep colors (pys "CLUSTERS") st name).1.length =
      (drawGraphStep colors (pys "CLUSTERS") st name).2.2.countP isOpenPiece := by
  obtain ⟨co, cl, ps⟩ := st
  have hsplit := length_filter_not_add_length_filter (fun x => in_package name x.1) co
  simp only [drawGraphStep, eq_self_iff_true, if_true, or_true, ← List.map_eq_flatMap,
    List.countP_append, List.countP_map, List.length_append, List.length_map,
    List.countP_singleton, Function.comp_def, isClosePiece, isOpenPiece] at h ⊢
  simp only [List.countP_true, List.countP_false, Bool.not_eq_true, Bool.false_eq_true,
    if_true, if_false, Function.const_apply] at h ⊢
  omega

/-- Folding `draw_graph`'s loop in `CLUSTERS` mode preserves the balance
invariant. -/
theorem drawGraphFold_balance (colors : PyDict PyStr) :
    ∀ (names : List PyStr) (co cl : List (PyStr × PyStr)) (ps : List Piece),
    ps.countP isClosePiece + co.length = ps.countP isOpenPiece →
    ((names.foldl (drawGraphStep colors (pys "CLUSTERS")) (co, cl, ps)).2.2).countP isClosePiece
        + (names.foldl (drawGraphStep colors (pys "CLUSTERS")) (co, cl, ps)).1.length
      = ((names.foldl (drawGraphStep colors (pys "CLUSTERS")) (co, cl, ps)).2.2).countP
          isOpenPiece := by
  intro names
  induction names with
  | nil => intro co cl ps h; simpa using h
  | cons n ns ih =>
    intro co cl ps h
    rw [List.foldl_cons]
    exact ih _ _ _ (drawGraphStep_balance colors n (co, cl, ps) h)

/-- `List.isPrefixOf` agrees with the `<+:` relation. -/
theorem isPrefixOf_eq_true_iff : ∀ {l₁ l₂ : PyStr}, l₁.isPrefixOf l₂ = true ↔ l₁ <+: l₂
  | [], l₂ => by simp [List.isPrefixOf]
  | _ :: _, [] => by simp [List.isPrefixOf]
  | a :: as, b :: bs => by
    simp [List.isPrefixOf, List.cons_prefix_cons, @isPrefixOf_eq_true_iff as bs,
      Bool.and_eq_true, beq_iff_eq]

/-- Unfolding of the containment test `in_package`. -/
theorem in_package_iff {a b : PyStr} : in_package a b = true ↔ a = b ∨ b ++ ['.'] <+: a := by
  simp [in_package, isPrefixOf_eq_true_iff, Bool.or_eq_true, decide_eq_true_eq]

/-- `in_package` is reflexive. -/
theorem in_package_refl (a : PyStr) : in_package a a = true :=
  in_package_iff.mpr (Or.inl rfl)

/-- `in_package` is transitive. -/
theorem in_package_trans {a b c : PyStr} (hab : in_package a b = true)
    (hbc : in_package b c = true) : in_package a c = true := by
  rcases in_package_iff.mp hab with rfl | h₁
  · exact hbc
  · rcases in_package_iff.mp hbc with rfl | h₂
    · exact hab
    · exact in_package_iff.mpr (Or.inr ((h₂.trans (List.prefix_append b ['.'])).trans h₁))

/-- `in_package` is antisymmetric. -/
theorem in_package_antisymm {a b : PyStr} (hab : in_package a b = true)
    (hba : in_package b a = true) : a = b := by
  rcases in_package_iff.mp hab with rfl | h₁
  · rfl
  · rcases in_package_iff.mp hba with rfl | h₂
    · rfl
    · have l₁ := h₁.length_le
      have l₂ := h₂.length_le
      simp only [List.length_append, List.length_cons, List.length_nil] at l₁ l₂
      omega

/-- The accumulator only grows under `foldl max`. -/
theorem init_le_foldl_max (f : α → Nat) :
    ∀ (l : List α) (a : Nat), a ≤ l.foldl (fun m e => max m (f e)) a := by
  intro l
  induction l with
  | nil => intro a; exact Nat.le_refl a
  | cons y l ih => intro a; exact Nat.le_trans (Nat.le_max_left a (f y)) (ih (max a (f y)))

/-- Every element's value is bounded by the `foldl max` of the list. -/
theorem le_foldl_max (f : α → Nat) :
    ∀ (l : List α) (a : Nat) (x : α), x ∈ l → f x ≤ l.foldl (fun m e => max m (f e)) a := by
  intro l
  induction l with
  | nil => intro a x hx; cases hx
  | cons y l ih =>
    intro a x hx
    rcases List.mem_cons.mp hx with rfl | hx
    · exact Nat.le_trans (Nat.le_max_right a (f x)) (init_le_foldl_max f l (max a (f x)))
    · exact ih (max a (f y)) x hx

/-- Membership in `retainedEdges`: exactly the graph's `(source, target)`
pairs whose target is also a graph key. -/
theorem mem_retainedEdges {graph : PyDict (List PyStr)} {s t : PyStr} :
    (s, t) ∈ retainedEdges graph ↔
      ∃ ts, (s, ts) ∈ graph ∧ t ∈ ts ∧ pyMem t graph = true := by
  simp only [retainedEdges, List.mem_flatMap, List.mem_map, List.mem_filter]
  constructor
  · rintro ⟨kv, hkv, t', ⟨ht', hmem⟩, heq⟩
    obtain ⟨h₁, h₂⟩ := Prod.mk.injEq .. ▸ heq
    exact ⟨kv.2, by rw [← h₁]; exact (Prod.mk.eta ▸ hkv), h₂ ▸ ht', h₂ ▸ hmem⟩
  · rintro ⟨ts, hts, ht, hmem⟩
    exact ⟨(s, ts), hts, t, ⟨ht, hmem⟩, rfl⟩

/-- Every retained edge's distance is bounded by `get_max_dist`. -/
theorem distance_le_get_max_dist {graph : PyDict (List PyStr)} {e : PyStr × PyStr}
    (he : e ∈ retainedEdges graph) : distance e.1 e.2 ≤ get_max_dist graph :=
  le_foldl_max (fun e => distance e.1 e.2) (retainedEdges graph) 0 e he

/-- Claim C5: `draw_arrows` emits an edge exactly for each adjacency pair
whose target is also a graph key; each weight is `2 ^ (max_dist − d)` where
`d` is the edge's hop distance, which is at least 1 (so never non-positive)
and antitone in `d`; and `get_max_dist` is 0 on a graph with no retained
edges. -/
theorem C5_draw_arrows_weights (graph : PyDict (List PyStr)) :
    (∀ src tgt w, (src, tgt, w) ∈ arrowTriples graph ↔
        (∃ ts, (src, ts) ∈ graph ∧ tgt ∈ ts ∧ pyMem tgt graph = true) ∧
          w = 2 ^ (get_max_dist graph - distance src tgt)) ∧
    (∀ e ∈ arrowTriples graph, 1 ≤ e.2.2) ∧
    (∀ e₁ e₂, e₁ ∈ arrowTriples graph → e₂ ∈ arrowTriples graph →
        distance e₁.1 e₁.2.1 ≤ distance e₂.1 e₂.2.1 → e₂.2.2 ≤ e₁.2.2) ∧
    ((∀ kv ∈ graph, ∀ t ∈ kv.2, pyMem t graph = false) → get_max_dist graph = 0) := by
  have hmem : ∀ src tgt w, (src, tgt, w) ∈ arrowTriples graph ↔
      (src, tgt) ∈ retainedEdges graph ∧
        w = 2 ^ (get_max_dist graph - distance src tgt) := by
    intro src tgt w
    simp only [arrowTriples, List.mem_map]
    constructor
    · rintro ⟨e, he, heq⟩
      injection heq with h₁ h₂
      injection h₂ with h₂ h₃
      subst h₁; subst h₂
      exact ⟨he, h₃.symm⟩
    · rintro ⟨he, rfl⟩
      exact ⟨(src, tgt), he, rfl⟩
  refine ⟨?_, ?_, ?_, ?_⟩
  · intro src tgt w
    rw [hmem, mem_retainedEdges]
  · rintro ⟨src, tgt, w⟩ he
    obtain ⟨-, rfl⟩ := (hmem src tgt w).mp he
    exact Nat.one_le_two_pow
  · rintro ⟨s₁, t₁, w₁⟩ ⟨s₂, t₂, w₂⟩ h₁ h₂ hd
    obtain ⟨-, rfl⟩ := (hmem s₁ t₁ w₁).mp h₁
    obtain ⟨-, rfl⟩ := (hmem s₂ t₂ w₂).mp h₂
    dsimp only at hd ⊢
    exact Nat.pow_le_pow_right (by omega) (Nat.sub_le_sub_left hd _)
  · intro hno
    have : retainedEdges graph = [] := by
      rw [List.eq_nil_iff_forall_not_mem]
      rintro ⟨s, t⟩ hmem'
      obtain ⟨ts, hts, ht, hkey⟩ := mem_retainedEdges.mp hmem'
      rw [hno (s, ts) hts t ht] at hkey
      cases hkey
    simp [get_max_dist, this]

/-- Claim C5, witness: concrete instances of the `get_max_dist = 0` clause
and of the edge-membership clause. -/
theorem C5_draw_arrows_weights_witness :
    get_max_dist [(pys "a", [pys "z"])] = 0 ∧
    (pys "a", pys "b", 1) ∈ arrowTriples [(pys "a", [pys "b"]), (pys "b", [])] :=
  ⟨(C5_draw_arrows_weights [(pys "a", [pys "z"])]).2.2.2 (by decide),
   ((C5_draw_arrows_weights [(pys "a", [pys "b"]), (pys "b", [])]).1 (pys "a") (pys "b") 1).mpr
     ⟨⟨[pys "b"], by decide, by decide, by decide⟩, by decide⟩⟩

/-- `find_best_cluster`'s loop ignores clusters that do not contain `name`. -/
theorem fbc_filter (name : PyStr) :
    ∀ (cs : List PyStr) (b : Option PyStr),
    cs.foldl (fbcStep name) b =
      (cs.filter (fun c => in_package name c)).foldl (fbcStep name) b := by
  intro cs
  induction cs with
  | nil => intro b; rfl
  | cons c cs ih =>
    intro b
    by_cases h : in_package name c = true
    · rw [List.foldl_cons, List.filter_cons_of_pos h, List.foldl_cons, ih]
    · rw [List.foldl_cons, List.filter_cons_of_neg (by simp [h]), ih]
      congr 1
      simp [fbcStep, h]

/-- Running `find_best_cluster`'s loop over a list of clusters that all
contain `name` and are pairwise comparable yields the deepest of them and
of the initial best. -/
theorem fbc_chain_go (name : PyStr) :
    ∀ (cs : List PyStr) (b₀ : PyStr),
    (∀ c ∈ cs, in_package name c = true) →
    (∀ c₁ ∈ b₀ :: cs, ∀ c₂ ∈ b₀ :: cs,
      in_package c₁ c₂ = true ∨ in_package c₂ c₁ = true) →
    ∃ m, cs.foldl (fbcStep name) (some b₀) = some m ∧ (m = b₀ ∨ m ∈ cs) ∧
      in_package m b₀ = true ∧ ∀ c ∈ cs, in_package m c = true := by
  intro cs
  induction cs with
  | nil =>
    intro b₀ _ _
    exact ⟨b₀, rfl, Or.inl rfl, in_package_refl b₀, by simp⟩
  | cons c cs ih =>
    intro b₀ hall hcomp
    have hc : in_package name c = true := hall c (by simp)
    have hstep : fbcStep name (some b₀) c =
        if in_package c b₀ = true then some c else some b₀ := by
      simp [fbcStep, hc]
    rw [List.foldl_cons]
    by_cases hcb : in_package c b₀ = true
    · rw [hstep, if_pos hcb]
      obtain ⟨m, hm, hmem, hmb, hcs⟩ := ih c (fun x hx => hall x (by simp [hx]))
        (fun c₁ h₁ c₂ h₂ =>
          hcomp c₁ (List.mem_cons_of_mem b₀ h₁) c₂ (List.mem_cons_of_mem b₀ h₂))
      refine ⟨m, hm, Or.inr ?_, in_package_trans hmb hcb, ?_⟩
      · rcases hmem with rfl | h
        · simp
        · simp [h]
      · intro x hx
        rcases List.mem_cons.mp hx with rfl | hx
        · exact hmb
        · exact hcs x hx
    · rw [hstep, if_neg hcb]
      have hbc : in_package b₀ c = true := by
        rcases hcomp c (by simp) b₀ (by simp) with h | h
        · exact absurd h hcb
        · exact h
      have hcomp' : ∀ x ∈ b₀ :: cs, ∀ y ∈ b₀ :: cs,
          in_package x y = true ∨ in_package y x = true := by
        intro x hx y hy
        have hx' : x ∈ b₀ :: c :: cs := by
          rcases List.mem_cons.mp hx with rfl | hx'
          · simp
          · simp [hx']
        have hy' : y ∈ b₀ :: c :: cs := by
          rcases List.mem_cons.mp hy with rfl | hy'
          · simp
          · simp [hy']
        exact hcomp x hx' y hy'
      obtain ⟨m, hm, hmem, hmb, hcs⟩ := ih b₀ (fun x hx => hall x (by simp [hx])) hcomp'
      refine ⟨m, hm, ?_, hmb, ?_⟩
      · rcases hmem with rfl | h
        · exact Or.inl rfl
        · exact Or.inr (by simp [h])
      · intro x hx
        rcases List.mem_cons.mp hx with rfl | hx
        · exact in_package_trans hmb hbc
        · exact hcs x hx

/-- Characterization of `find_best_cluster` under the chain hypothesis:
`none` exactly when no cluster contains `name`; otherwise the result is a
containing cluster that is contained in every containing cluster. -/
theorem find_best_cluster_spec (name : PyStr) (clusters : List PyStr)
    (hchain : ∀ c₁ ∈ clusters, ∀ c₂ ∈ clusters,
      in_package name c₁ = true → in_package name c₂ = true →
      in_package c₁ c₂ = true ∨ in_package c₂ c₁ = true) :
    (find_best_cluster name clusters = none ↔
      ∀ c ∈ clusters, in_package name c = false) ∧
    (∀ b, find_best_cluster name clusters = some b →
      b ∈ clusters ∧ in_package name b = true ∧
      ∀ c ∈ clusters, in_package name c = true → in_package b c = true) := by
  have hfb : find_best_cluster name clusters =
      (clusters.filter (fun c => in_package name c)).foldl (fbcStep name) none :=
    fbc_filter name clusters none
  rcases hcands : clusters.filter (fun c => in_package name c) with _ | ⟨c, cs⟩
  · rw [hcands] at hfb
    constructor
    · constructor
      · intro _ x hx
        by_contra hcx
        have : x ∈ clusters.filter (fun c => in_package name c) :=
          List.mem_filter.mpr ⟨hx, by simpa using hcx⟩
        rw [hcands] at this
        cases this
      · intro _
        exact hfb.trans rfl
    · intro b hb
      rw [hfb] at hb
      cases hb
  · have hcmem : ∀ x ∈ c :: cs, x ∈ clusters ∧ in_package name x = true := by
      intro x hx
      have : x ∈ clusters.filter (fun c => in_package name c) := hcands ▸ hx
      exact ⟨(List.mem_filter.mp this).1, (List.mem_filter.mp this).2⟩
    rw [hcands] at hfb
    rw [List.foldl_cons] at hfb
    have hstep0 : fbcStep name none c = some c := by
      simp [fbcStep, (hcmem c (by simp)).2]
    rw [hstep0] at hfb
    obtain ⟨m, hm, hmem, hmb, hcs⟩ := fbc_chain_go name cs c
      (fun x hx => (hcmem x (by simp [hx])).2)
      (fun c₁ h₁ c₂ h₂ =>
        hchain c₁ (hcmem c₁ h₁).1 c₂ (hcmem c₂ h₂).1 (hcmem c₁ h₁).2 (hcmem c₂ h₂).2)
    have hmcands : m ∈ c :: cs := by
      rcases hmem with rfl | h
      · simp
      · simp [h]
    constructor
    · constructor
      · intro h
        rw [hfb, hm] at h
        cases h
      · intro hfalse
        have h2 := (hcmem c (by simp)).2
        rw [hfalse c (hcmem c (by simp)).1] at h2
        cases h2
    · intro b hb
      rw [hfb, hm] at hb
      injection hb with hb
      subst hb
      refine ⟨(hcmem m hmcands).1, (hcmem m hmcands).2, ?_⟩
      intro x hx hcx
      have : x ∈ c :: cs := hcands ▸ List.mem_filter.mpr ⟨hx, by simpa using hcx⟩
      rcases List.mem_cons.mp this with rfl | hx'
      · exact hmb
      · exact hcs x hx'

/-- Claim C6: when the clusters containing `name` form a chain under
containment, `find_best_cluster` returns the deepest cluster containing
`name` (one contained in every containing cluster), `none` exactly when no
cluster contains `name`, and the result is independent of list order. -/
theorem C6_find_best_cluster_deepest (name : PyStr) (clusters : List PyStr)
    (hchain : ∀ c₁ ∈ clusters, ∀ c₂ ∈ clusters,
      in_package name c₁ = true → in_package name c₂ = true →
      in_package c₁ c₂ = true ∨ in_package c₂ c₁ = true) :
    (find_best_cluster name clusters = none ↔
      ∀ c ∈ clusters, in_package name c = false) ∧
    (∀ b, find_best_cluster name clusters = some b →
      b ∈ clusters ∧ in_package name b = true ∧
      ∀ c ∈ clusters, in_package name c = true → in_package b c = true) ∧
    (∀ clusters₂, clusters₂.Perm clusters →
      find_best_cluster name clusters₂ = find_best_cluster name clusters) := by
  obtain ⟨h₁, h₂⟩ := find_best_cluster_spec name clusters hchain
  refine ⟨h₁, h₂, ?_⟩
  intro clusters₂ hperm
  have hchain₂ : ∀ c₁ ∈ clusters₂, ∀ c₂ ∈ clusters₂,
      in_package name c₁ = true → in_package name c₂ = true →
      in_package c₁ c₂ = true ∨ in_package c₂ c₁ = true := fun c₁ hc₁ c₂ hc₂ =>
    hchain c₁ (hperm.mem_iff.mp hc₁) c₂ (hperm.mem_iff.mp hc₂)
  obtain ⟨g₁, g₂⟩ := find_best_cluster_spec name clusters₂ hchain₂
  rcases hr₂ : find_best_cluster name clusters₂ with _ | b₂ <;>
    rcases hr : find_best_cluster name clusters with _ | b
  · rfl
  · obtain ⟨hbmem, hbc, _⟩ := h₂ b hr
    have := g₁.mp hr₂ b (hperm.mem_iff.mpr hbmem)
    rw [hbc] at this
    cases this
  · obtain ⟨hbmem, hbc, _⟩ := g₂ b₂ hr₂
    have := h₁.mp hr b₂ (hperm.mem_iff.mp hbmem)
    rw [hbc] at this
    cases this
  · obtain ⟨hmem₂, hc₂, hmin₂⟩ := g₂ b₂ hr₂
    obtain ⟨hmem₁, hc₁, hmin₁⟩ := h₂ b hr
    have hab : in_package b₂ b = true :=
      hmin₂ b (hperm.mem_iff.mpr hmem₁) hc₁
    have hba : in_package b b₂ = true :=
      hmin₁ b₂ (hperm.mem_iff.mp hmem₂) hc₂
    rw [in_package_antisymm hab hba]

/-- Claim C6, witness: with clusters `["a", "a.b"]` (a chain for the name
`a.b.c`), the deepest containing cluster `a.b` is selected; its
characterization is obtained from the theorem at this concrete input. -/
theorem C6_find_best_cluster_deepest_witness :
    (pys "a.b") ∈ [pys "a", pys "a.b"] ∧ in_package (pys "a.b.c") (pys "a.b") = true ∧
    ∀ c ∈ [pys "a", pys "a.b"], in_package (pys "a.b.c") c = true →
      in_package (pys "a.b") c = true :=
  (C6_find_best_cluster_deepest (pys "a.b.c") [pys "a", pys "a.b"] (by decide)).2.1
    (pys "a.b") (by decide)

/-- Claim C7, counterexample: the selector `-1` is not one of 0, 1, 2, 3,
yet the program does not abort: Python's negative indexing makes
`DRAW_MODES[-1]` the last mode, and (here, with no files) a complete graph
description is written to stdout. -/
theorem C7_mode_selector_counterexample :
    ¬((-1 : ℤ) = 0 ∨ (-1 : ℤ) = 1 ∨ (-1 : ℤ) = 2 ∨ (-1 : ℤ) = 3) ∧
    main_run (-1) [] [] none false =
      Except.ok (some (Except.ok (pys
        "digraph G \x7b\nnode [style=filled,fontname=Helvetica,fontsize=16];\n\x7d\n"))) := by
  constructor
  · decide
  · rfl

/-- Claim C7, amended: the program aborts with exit code 1, before producing
any output, exactly for selectors outside `-4 … 3`; selectors `-4 … -1` are
accepted through Python negative indexing and proceed into graph generation
exactly like `0 … 3`. Acceptance does not guarantee output: the third
clause shows an in-range selector whose run produces no output because
`color_label` recurses forever on the module names `a.` and `a` (from files
`a..py` and `a.py`) before the first write. -/
theorem C7_mode_selector_range (g : ℤ) (files : List (PyStr × PyStr × PyStr))
    (autoclusters : List (PyStr × PyStr)) (clustersArg : Option (List PyStr))
    (concentrate : Bool) :
    ((g < -4 ∨ 3 < g) →
      main_run g files autoclusters clustersArg concentrate = Except.error 1) ∧
    (-4 ≤ g → g ≤ 3 →
      ∃ out, main_run g files autoclusters clustersArg concentrate = Except.ok out) ∧
    main_run 0 [(pys "a..py", pys "", pys ""), (pys "a.py", pys "", pys "")] [] none false =
      Except.ok none := by
  have hlen : (DRAW_MODES : List PyStr).length = 4 := rfl
  refine ⟨?_, ?_, ?_⟩
  · intro hg
    have hnone : pyListGet DRAW_MODES g = none := by
      unfold pyListGet
      rcases hg with hg | hg
      · rw [if_neg (by omega), if_neg (by rw [hlen]; push_cast; omega)]
      · rw [if_pos (by omega)]
        apply List.get?_len_le
        rw [hlen]
        omega
    simp [main_run, hnone]
  · intro h₁ h₂
    have hsome : (pyListGet DRAW_MODES g).isSome = true := by
      unfold pyListGet
      by_cases h0 : 0 ≤ g
      · rw [if_pos h0, Option.isSome_iff_ne_none]
        intro hnone
        rw [List.get?_eq_none, hlen] at hnone
        omega
      · rw [if_neg h0, if_pos (by rw [hlen]; push_cast; omega),
          Option.isSome_iff_ne_none]
        intro hnone
        rw [List.get?_eq_none, hlen] at hnone
        push_cast at hnone
        omega
    obtain ⟨mode, hmode⟩ := Option.isSome_iff_exists.mp hsome
    exact ⟨do_graph files autoclusters clustersArg mode concentrate,
      by simp [main_run, hmode]⟩
  · rfl

/-- Claim C7, witness: selector 7 aborts with exit code 1; selector 2 is
accepted (run in hand). -/
theorem C7_mode_selector_range_witness :
    main_run 7 [] [] none false = Except.error 1 ∧
    ∃ out, main_run 2 [] [] none false = Except.ok out :=
  ⟨(C7_mode_selector_range 7 [] [] none false).1 (by decide),
   (C7_mode_selector_range 2 [] [] none false).2.1 (by decide) (by decide)⟩

/-- Claim C4: in `CLUSTERS` mode, `draw_graph` emits exactly as many
scope-open pieces as scope-close pieces, for every graph, cluster list and
color assignment: every opened cluster scope is closed by the end of the
returned string. -/
theorem C4_cluster_scope_balance (graph : PyDict (List PyStr))
    (clusters : List (PyStr × PyStr)) (colors : PyDict PyStr) :
    ((draw_graph_pieces graph clusters colors (pys "CLUSTERS")).1).countP isOpenPiece =
      ((draw_graph_pieces graph clusters colors (pys "CLUSTERS")).1).countP isClosePiece := by
  have h0 := drawGraphFold_balance colors (pySorted strLe (pyKeys graph)) [] clusters []
    (by simp)
  simp only [draw_graph_pieces, drawGraphLoop, eq_self_iff_true, if_true,
    List.countP_append, List.countP_replicate, isClosePiece, isOpenPiece,
    Bool.false_eq_true, if_false] at h0 ⊢
  omega

/-- Claim C1, counterexample: the claim asserts
`distance("a.b", "c.d") == 2`, but on the code the distance is 4: neither
loop of `distance` ever finds a common containing prefix, so each loop
contributes `2` hops (one per segment of the other name). -/
theorem C1_distance_counterexample :
    distance (pys "a.b") (pys "c.d") = 4 ∧ distance (pys "a.b") (pys "c.d") ≠ 2 := by
  decide

/-- Claim C1, amended: `distance("a.b.c","a.b.d") = 2`,
`distance("a.b","a.b.c") = 1`, `distance("a","a") = 0`, and
`distance("a.b","c.d") = 4` (two names with no common prefix are separated
by the sum of their depths: two hops up from each). -/
theorem C1_distance_values :
    distance (pys "a.b.c") (pys "a.b.d") = 2 ∧
    distance (pys "a.b") (pys "a.b.c") = 1 ∧
    distance (pys "a") (pys "a") = 0 ∧
    distance (pys "a.b") (pys "c.d") = 4 := by
  decide

/-- Claim C2: `build_graph` on the single file `pkg/mod.py` with content
`"import a.b, c\nfrom d.e import f\n"` produces exactly the graph mapping
`pkg.mod` to `["a.b", "c", "d.e"]`, in that order, without duplicates. -/
theorem C2_build_graph_round_trip :
    build_graph [(pys "pkg/mod.py", pys "", pys "import a.b, c\nfrom d.e import f\n")] =
      [(pys "pkg.mod", [pys "a.b", pys "c", pys "d.e"])] := by
  decide

/-- Claim C10: `escape` is not injective: the three pairwise-distinct names
`a.b`, `a-b` and `a_b` all map to the identifier `a_b`. -/
theorem C10_escape_not_injective :
    escape (pys "a.b") = pys "a_b" ∧
    escape (pys "a-b") = pys "a_b" ∧
    escape (pys "a_b") = pys "a_b" ∧
    pys "a.b" ≠ pys "a-b" ∧ pys "a.b" ≠ pys "a_b" ∧ pys "a-b" ≠ pys "a_b" := by
  decide

/-- `pySplit` never returns an empty list of segments. -/
theorem pySplit_ne_nil (sep : Char) (s : PyStr) : pySplit sep s ≠ [] := by
  cases s with
  | nil => simp [pySplit]
  | cons c rest =>
    rw [pySplit]
    by_cases h : c = sep
    · simp [h]
    · rw [if_neg h]
      rcases hs : pySplit sep rest with _ | ⟨g, gs⟩ <;> simp

/-- Joining the segments of a split recovers the original string. -/
theorem pyJoin_pySplit (sep : Char) : ∀ (s : PyStr), pyJoin sep (pySplit sep s) = s := by
  intro s
  induction s with
  | nil => rfl
  | cons c rest ih =>
    rw [pySplit]
    by_cases h : c = sep
    · rw [if_pos h]
      rcases hs : pySplit sep rest with _ | ⟨g, gs⟩
      · exact absurd hs (pySplit_ne_nil sep rest)
      · rw [hs] at ih
        rw [show pyJoin sep ([] :: g :: gs) = sep :: pyJoin sep (g :: gs) from rfl, ih, h]
    · rw [if_neg h]
      rcases hs : pySplit sep rest with _ | ⟨g, gs⟩
      · exact absurd hs (pySplit_ne_nil sep rest)
      · rw [hs] at ih
        cases gs with
        | nil =>
          show c :: g = c :: rest
          rw [show pyJoin sep [g] = g from rfl] at ih
          rw [ih]
        | cons q qs =>
          show (c :: g) ++ sep :: pyJoin sep (q :: qs) = c :: rest
          rw [show pyJoin sep (g :: q :: qs) = g ++ sep :: pyJoin sep (q :: qs) from rfl] at ih
          rw [← ih]
          rfl

/-- No segment produced by `pySplit` contains the separator. -/
theorem pySplit_sep_not_mem (sep : Char) :
    ∀ (s : PyStr), ∀ seg ∈ pySplit sep s, sep ∉ seg := by
  intro s
  induction s with
  | nil =>
    intro seg hseg
    rw [show pySplit sep [] = [[]] from rfl] at hseg
    simp at hseg
    simp [hseg]
  | cons c rest ih =>
    intro seg hseg
    rw [pySplit] at hseg
    by_cases h : c = sep
    · rw [if_pos h] at hseg
      rcases List.mem_cons.mp hseg with rfl | hseg'
      · simp
      · exact ih seg hseg'
    · rw [if_neg h] at hseg
      rcases hs : pySplit sep rest with _ | ⟨g, gs⟩
      · exact absurd hs (pySplit_ne_nil sep rest)
      · rw [hs] at hseg
        rcases List.mem_cons.mp hseg with rfl | hseg'
        · intro hmem
          rcases List.mem_cons.mp hmem with rfl | hmem'
          · exact h rfl
          · exact ih g (by rw [hs]; simp) hmem'
        · exact ih seg (by rw [hs]; simp [hseg'])

/-- A string without the separator splits into the single segment itself. -/
theorem pySplit_no_sep (sep : Char) : ∀ (p : PyStr), sep ∉ p → pySplit sep p = [p] := by
  intro p
  induction p with
  | nil => intro _; rfl
  | cons c r ih =>
    intro hp
    rw [pySplit, if_neg (by intro hc; exact hp (hc ▸ List.mem_cons_self c r)),
      ih (fun hm => hp (List.mem_cons_of_mem c hm))]

/-- Splitting past a separator-free head piece. -/
theorem pySplit_append (sep : Char) :
    ∀ (p : PyStr), sep ∉ p → ∀ (t : PyStr),
    pySplit sep (p ++ sep :: t) = p :: pySplit sep t := by
  intro p
  induction p with
  | nil => intro _ t; simp [pySplit]
  | cons c r ih =>
    intro hp t
    rw [List.cons_append, pySplit,
      if_neg (by intro hc; exact hp (hc ▸ List.mem_cons_self c r)),
      ih (fun hm => hp (List.mem_cons_of_mem c hm)) t]

/-- Splitting a join of non-empty, separator-free segments recovers them. -/
theorem pySplit_pyJoin (sep : Char) :
    ∀ (segs : List PyStr), segs ≠ [] → (∀ seg ∈ segs, sep ∉ seg) →
    pySplit sep (pyJoin sep segs) = segs := by
  intro segs
  induction segs with
  | nil => intro h; exact absurd rfl h
  | cons p ps ih =>
    intro _ hsegs
    cases ps with
    | nil => exact pySplit_no_sep sep p (hsegs p (by simp))
    | cons q qs =>
      rw [show pyJoin sep (p :: q :: qs) = p ++ sep :: pyJoin sep (q :: qs) from rfl,
        pySplit_append sep p (hsegs p (by simp)) _,
        ih (by simp) (fun seg hseg => hsegs seg (by simp [hseg]))]

/-- A join of a non-empty first segment is non-empty. -/
theorem pyJoin_cons_ne_nil (sep : Char) (q : PyStr) (qs : List PyStr) (hq : q ≠ []) :
    pyJoin sep (q :: qs) ≠ [] := by
  cases qs with
  | nil => exact hq
  | cons r rs =>
    show q ++ sep :: pyJoin sep (r :: rs) ≠ []
    simp

/-- A name whose split has at least two segments is not the empty string,
so a valid-or-empty name with such a split is valid. -/
theorem valid_of_split_cons₂ {x h q : PyStr} {qs : List PyStr}
    (hx : validName x ∨ x = []) (hht : pySplit '.' x = h :: q :: qs) : validName x := by
  rcases hx with hv | rfl
  · exact hv
  · rw [show pySplit '.' ([] : PyStr) = [[]] from rfl] at hht
    injection hht with _ h2
    cases h2

/-- Re-prepending the first segment to the joined tail recovers a
valid-or-empty name: the inverse law behind `color_label`'s key set. -/
theorem cat_split (x : PyStr) (hx : validName x ∨ x = []) :
    cat (pySplit '.' x).headI (pyJoin '.' (pySplit '.' x).tail) = x := by
  obtain ⟨h, t, hht⟩ := List.exists_cons_of_ne_nil (pySplit_ne_nil '.' x)
  have hx' := pyJoin_pySplit '.' x
  rw [hht]
  cases t with
  | nil =>
    show cat h (pyJoin '.' []) = x
    rw [hht] at hx'
    rw [show pyJoin '.' ([h] : List PyStr) = h from rfl] at hx'
    show cat h [] = x
    rw [cat]
    simp [hx']
  | cons q qs =>
    show cat h (pyJoin '.' (q :: qs)) = x
    have hvalid : validName x := valid_of_split_cons₂ hx hht
    have hq : q ≠ [] := hvalid q (by rw [hht]; simp)
    have hh : h ≠ [] := hvalid h (by rw [hht]; simp)
    have hjoin_ne : pyJoin '.' (q :: qs) ≠ [] := pyJoin_cons_ne_nil '.' q qs hq
    rw [cat, if_neg hjoin_ne, if_neg hh]
    rw [hht] at hx'
    rw [← hx']
    rfl

/-- Stripping the first segment preserves the valid-or-empty invariant. -/
theorem strip_VE (x : PyStr) (hx : validName x ∨ x = []) :
    validName (pyJoin '.' (pySplit '.' x).tail) ∨ pyJoin '.' (pySplit '.' x).tail = [] := by
  obtain ⟨h, t, hht⟩ := List.exists_cons_of_ne_nil (pySplit_ne_nil '.' x)
  rw [hht]
  cases t with
  | nil => exact Or.inr rfl
  | cons q qs =>
    left
    have hvalid : validName x := valid_of_split_cons₂ hx hht
    have hdotfree : ∀ seg ∈ q :: qs, '.' ∉ seg := fun seg hseg =>
      pySplit_sep_not_mem '.' x seg (by rw [hht]; simp [hseg])
    show validName (pyJoin '.' (q :: qs))
    unfold validName
    rw [pySplit_pyJoin '.' (q :: qs) (by simp) hdotfree]
    intro seg hseg
    exact hvalid seg (by rw [hht]; simp [hseg])

/-- Two valid-or-empty names with the same first segment and the same
joined tail are equal. -/
theorem strip_inj {x y : PyStr} (hx : validName x ∨ x = []) (hy : validName y ∨ y = [])
    (hhead : (pySplit '.' x).headI = (pySplit '.' y).headI)
    (htail : pyJoin '.' (pySplit '.' x).tail = pyJoin '.' (pySplit '.' y).tail) :
    x = y := by
  have hcx := cat_split x hx
  have hcy := cat_split y hy
  rw [← hcx, ← hcy, hhead, htail]

/-- Stripping the first segment does not increase the segment count, and
strictly decreases it when the name has more than one segment. -/
theorem strip_segLen (x : PyStr) (hx : validName x ∨ x = []) :
    (pySplit '.' (pyJoin '.' (pySplit '.' x).tail)).length ≤ (pySplit '.' x).length ∧
    ((pySplit '.' x).tail ≠ [] →
      (pySplit '.' (pyJoin '.' (pySplit '.' x).tail)).length < (pySplit '.' x).length) := by
  obtain ⟨h, t, hht⟩ := List.exists_cons_of_ne_nil (pySplit_ne_nil '.' x)
  rw [hht]
  cases t with
  | nil =>
    constructor
    · show (pySplit '.' (pyJoin '.' [])).length ≤ 1
      rw [show pyJoin '.' ([] : List PyStr) = [] from rfl,
        show pySplit '.' ([] : PyStr) = [[]] from rfl]
      exact Nat.le_refl 1
    · intro hne
      exact absurd rfl hne
  | cons q qs =>
    have hvalid : validName x := valid_of_split_cons₂ hx hht
    have hdotfree : ∀ seg ∈ q :: qs, '.' ∉ seg := fun seg hseg =>
      pySplit_sep_not_mem '.' x seg (by rw [hht]; simp [hseg])
    have hroundtrip : pySplit '.' (pyJoin '.' (q :: qs)) = q :: qs :=
      pySplit_pyJoin '.' (q :: qs) (by simp) hdotfree
    show (pySplit '.' (pyJoin '.' (q :: qs))).length ≤ (q :: qs).length + 1 ∧ _
    constructor
    · rw [hroundtrip]
      omega
    · intro _
      show (pySplit '.' (pyJoin '.' (q :: qs))).length < (h :: q :: qs).length
      rw [hroundtrip]
      simp

/-- Key membership after a Python dict assignment. -/
theorem pyKeys_pyDictInsert :
    ∀ (d : PyDict PyStr) (k : PyStr) (v : PyStr) (k' : PyStr),
    k' ∈ pyKeys (pyDictInsert d k v) ↔ k' = k ∨ k' ∈ pyKeys d := by
  intro d
  induction d with
  | nil => intro k v k'; simp [pyDictInsert, pyKeys]
  | cons kv rest ih =>
    intro k v k'
    rw [pyDictInsert]
    by_cases h : kv.1 = k
    · rw [if_pos h]
      simp [pyKeys, h]
      try tauto
    · rw [if_neg h]
      have := ih k v k'
      simp [pyKeys] at this ⊢
      tauto

/-- Key membership after `color_label`'s dict-filling loop. -/
theorem pyKeys_insertAll (word : PyStr) :
    ∀ (sub : PyDict PyStr) (ret : PyDict PyStr) (k : PyStr),
    k ∈ pyKeys (insertAll word sub ret) ↔
      k ∈ pyKeys ret ∨ ∃ k' ∈ pyKeys sub, k = cat word k' := by
  intro sub
  induction sub with
  | nil => intro ret k; simp [insertAll, pyKeys]
  | cons kv rest ih =>
    intro ret k
    show k ∈ pyKeys (insertAll word rest (pyDictInsert ret (cat word kv.1) kv.2)) ↔ _
    rw [ih, pyKeys_pyDictInsert]
    simp [pyKeys]
    tauto

/-- Keys accumulated by the multi-group loop of `color_label`: the initial
keys plus, for every first-level word, the re-prepended keys of its group's
recursive result. -/
theorem color_label_fold_keys
    (recur : List PyStr → ℚ → ℚ → ℚ → PyRes (PyDict PyStr)) (damping step infra_dist : ℚ)
    (splits : List (List PyStr)) :
    ∀ (fl : List PyStr) (st : PyDict PyStr × ℚ),
    (∀ w ∈ fl, ∀ (s₀ s₁ : ℚ),
      ∃ d, recur ((splits.filter (fun x => x.headI = w)).map (fun x => pyJoin '.' x.tail))
          s₀ s₁ damping = some (Except.ok d) ∧
        ∀ k, k ∈ pyKeys d ↔
          k ∈ (splits.filter (fun x => x.headI = w)).map (fun x => pyJoin '.' x.tail)) →
    ∃ res, colorFold recur damping step infra_dist splits fl st = some (Except.ok res) ∧
      ∀ k, k ∈ pyKeys res.1 ↔ k ∈ pyKeys st.1 ∨
        ∃ w ∈ fl, ∃ x ∈ splits.filter (fun x => x.headI = w),
          k = cat w (pyJoin '.' x.tail) := by
  intro fl
  induction fl with
  | nil =>
    intro st _
    exact ⟨st, rfl, by simp⟩
  | cons w ws ih =>
    intro st hrec
    obtain ⟨d, hd, hdk⟩ := hrec w (by simp) st.2
      (st.2 + step * (((splits.filter (fun x => x.headI = w)).map
        (fun x => pyJoin '.' x.tail)).length : ℚ))
    obtain ⟨res, hres, hresk⟩ := ih
      (insertAll w d st.1,
       st.2 + step * (((splits.filter (fun x => x.headI = w)).map
         (fun x => pyJoin '.' x.tail)).length : ℚ) + infra_dist)
      (fun w' hw' => hrec w' (by simp [hw']))
    refine ⟨res, ?_, ?_⟩
    · show pyBind
        (recur ((splits.filter (fun x => x.headI = w)).map (fun x => pyJoin '.' x.tail))
          st.2 (st.2 + step * (((splits.filter (fun x => x.headI = w)).map
            (fun x => pyJoin '.' x.tail)).length : ℚ)) damping)
        (fun sub =>
          colorFold recur damping step infra_dist splits ws
            (insertAll w sub st.1,
             st.2 + step * (((splits.filter (fun x => x.headI = w)).map
               (fun x => pyJoin '.' x.tail)).length : ℚ) + infra_dist)) =
        some (Except.ok res)
      rw [hd]
      exact hres
    · intro k
      rw [hresk k]
      have hone : k ∈ pyKeys (insertAll w d st.1) ↔
          k ∈ pyKeys st.1 ∨ ∃ x ∈ splits.filter (fun x => x.headI = w),
            k = cat w (pyJoin '.' x.tail) := by
        rw [pyKeys_insertAll]
        constructor
        · rintro (h | ⟨k', hk', rfl⟩)
          · exact Or.inl h
          · obtain ⟨x, hx, rfl⟩ := List.mem_map.mp ((hdk k').mp hk')
            exact Or.inr ⟨x, hx, rfl⟩
        · rintro (h | ⟨x, hx, rfl⟩)
          · exact Or.inl h
          · exact Or.inr ⟨pyJoin '.' x.tail, (hdk _).mpr (List.mem_map.mpr ⟨x, hx, rfl⟩), rfl⟩
      rw [hone]
      constructor
      · rintro ((h | hx) | ⟨w', hw', hx⟩)
        · exact Or.inl h
        · exact Or.inr ⟨w, by simp, hx⟩
        · exact Or.inr ⟨w', by simp [hw'], hx⟩
      · rintro (h | ⟨w', hw', hx⟩)
        · exact Or.inl (Or.inl h)
        · rcases List.mem_cons.mp hw' with rfl | hw''
          · exact Or.inl (Or.inr hx)
          · exact Or.inr ⟨w', hw'', hx⟩

/-- The head of a non-empty list is a member. -/
theorem headI_mem_self {α : Type} [Inhabited α] {l : List α} (h : l ≠ []) : l.headI ∈ l := by
  obtain ⟨a, t, rfl⟩ := List.exists_cons_of_ne_nil h
  simp

/-- Every member of a list of naturals is at most the sum. -/
theorem le_sum_of_mem {l : List Nat} {x : Nat} (hx : x ∈ l) : x ≤ l.sum := by
  induction l with
  | nil => cases hx
  | cons a t ih =>
    rcases List.mem_cons.mp hx with rfl | hx'
    · simp
    · have := ih hx'
      simp
      omega

/-- A list with at least two distinct elements has, for every member,
another member different from it. -/
theorem exists_other_mem {α : Type} {l : List α} (hl : 2 ≤ l.length) (hnd : l.Nodup) :
    ∀ x ∈ l, ∃ y ∈ l, y ≠ x := by
  intro x hx
  cases l with
  | nil => cases hx
  | cons a t =>
    cases t with
    | nil => simp at hl
    | cons b t2 =>
      by_cases hxa : x = a
      · refine ⟨b, by simp, ?_⟩
        intro h
        apply (List.nodup_cons.mp hnd).1
        rw [h, hxa]
        exact List.mem_cons_self _ _
      · exact ⟨a, by simp, fun h => hxa h.symm⟩

/-- Splitting a sum of mapped values along a Boolean filter. -/
theorem sum_map_filter_add (f : α → Nat) (p : α → Bool) (l : List α) :
    ((l.filter p).map f).sum + ((l.filter (fun x => !(p x))).map f).sum = (l.map f).sum := by
  induction l with
  | nil => rfl
  | cons a l ih =>
    by_cases h : p a <;> simp [h, ← ih] <;> omega

/-- A name all of whose split is a single segment equals that segment. -/
theorem eq_headI_of_tail_nil {x : PyStr} (hx : validName x ∨ x = [])
    (ht : (pySplit '.' x).tail = []) : x = (pySplit '.' x).headI := by
  have hc := cat_split x hx
  rw [ht] at hc
  rw [show pyJoin '.' ([] : List PyStr) = [] from rfl] at hc
  rw [cat] at hc
  simp at hc
  exact hc.symm

/-- Key-set correctness of `color_label`'s recursive body: assuming the
recursive call terminates on smaller inputs (returning key-correct mappings
whenever `damping ≠ 0`), the body terminates, and when `damping ≠ 0` it
returns a mapping whose key set is exactly the input name set (at
`damping = 0` it may instead raise `ZeroDivisionError`). -/
theorem color_labelMain_keys
    (recur : List PyStr → ℚ → ℚ → ℚ → PyRes (PyDict PyStr))
    (names : List PyStr) (start stop damping : ℚ)
    (hrec : ∀ (ns : List PyStr) (s₀ s₁ : ℚ), segCount ns < segCount names →
      (∀ x ∈ ns, validName x ∨ x = []) → ns.Nodup →
      ∃ r, recur ns s₀ s₁ damping = some r ∧
        (damping ≠ 0 → ∃ d, r = Except.ok d ∧ ∀ k, k ∈ pyKeys d ↔ k ∈ ns))
    (hVE : ∀ x ∈ names, validName x ∨ x = []) (hnd : names.Nodup)
    (h2 : 2 ≤ names.length) :
    ∃ r, color_labelMain recur names start stop damping = some r ∧
      (damping ≠ 0 → ∃ d, r = Except.ok d ∧ ∀ k, k ∈ pyKeys d ↔ k ∈ names) := by
  have hne : names ≠ [] := by
    intro h
    rw [h] at h2
    simp at h2
  have hflmem : ∀ w, w ∈ pySorted strLe ((names.map (pySplit '.')).map List.headI).dedup ↔
      ∃ x ∈ names, (pySplit '.' x).headI = w := by
    intro w
    rw [(pySorted_perm strLe _).mem_iff, List.mem_dedup, List.map_map, List.mem_map]
    constructor
    · rintro ⟨x, hx, rfl⟩
      exact ⟨x, hx, rfl⟩
    · rintro ⟨x, hx, rfl⟩
      exact ⟨x, hx, rfl⟩
  have hflnd : (pySorted strLe ((names.map (pySplit '.')).map List.headI).dedup).Nodup :=
    (pySorted_perm strLe _).nodup_iff.mpr (List.nodup_dedup _)
  by_cases hfl1 : (pySorted strLe ((names.map (pySplit '.')).map List.headI).dedup).length = 1
  · -- one shared first-level segment: recurse over the unchanged interval
    obtain ⟨w, hw⟩ := List.length_eq_one.mp hfl1
    have hallw : ∀ x ∈ names, (pySplit '.' x).headI = w := by
      intro x hx
      have hmem := (hflmem ((pySplit '.' x).headI)).mpr ⟨x, hx, rfl⟩
      rw [hw] at hmem
      simpa using hmem
    have hvalid : ∀ x ∈ names, validName x := by
      intro x hx
      rcases hVE x hx with hv | rfl
      · exact hv
      · exfalso
        obtain ⟨y, hy, hyne⟩ := exists_other_mem h2 hnd [] hx
        rcases hVE y hy with hyv | rfl
        · have h1 : (pySplit '.' y).headI ≠ [] :=
            hyv _ (headI_mem_self (pySplit_ne_nil '.' y))
          have hyw := hallw y hy
          have hew := hallw [] hx
          rw [show (pySplit '.' ([] : PyStr)).headI = ([] : PyStr) from rfl] at hew
          exact h1 (hyw.trans hew.symm)
        · exact hyne rfl
    have htrVE : ∀ z ∈ names.map (fun x => pyJoin '.' (pySplit '.' x).tail),
        validName z ∨ z = [] := by
      intro z hz
      obtain ⟨x, hx, rfl⟩ := List.mem_map.mp hz
      exact strip_VE x (hVE x hx)
    have htrnd : (names.map (fun x => pyJoin '.' (pySplit '.' x).tail)).Nodup := by
      apply List.Nodup.map_on ?_ hnd
      intro x hx y hy hxy
      exact strip_inj (hVE x hx) (hVE y hy) ((hallw x hx).trans (hallw y hy).symm) hxy
    have hstrict : ∃ x ∈ names, (pySplit '.' x).tail ≠ [] := by
      by_contra hall
      push_neg at hall
      have hallweq : ∀ x ∈ names, x = w := by
        intro x hx
        exact (eq_headI_of_tail_nil (hVE x hx) (hall x hx)).trans (hallw x hx)
      obtain ⟨x, hx⟩ := List.exists_mem_of_ne_nil names hne
      obtain ⟨y, hy, hyne⟩ := exists_other_mem h2 hnd x hx
      exact hyne ((hallweq y hy).trans (hallweq x hx).symm)
    have htrseg :
        segCount (names.map (fun x => pyJoin '.' (pySplit '.' x).tail)) < segCount names := by
      obtain ⟨x₀, hx₀, hx₀t⟩ := hstrict
      unfold segCount
      rw [List.map_map]
      apply List.sum_lt_sum
      · intro x hx
        exact (strip_segLen x (hVE x hx)).1
      · exact ⟨x₀, hx₀, (strip_segLen x₀ (hVE x₀ hx₀)).2 hx₀t⟩
    obtain ⟨r', hr', hr'k⟩ := hrec (names.map (fun x => pyJoin '.' (pySplit '.' x).tail))
      start stop htrseg htrVE htrnd
    have hr'' : recur ((names.map (pySplit '.')).map (fun x => pyJoin '.' x.tail))
        start stop damping = some r' := by
      rw [List.map_map]
      exact hr'
    have heq : color_labelMain recur names start stop damping =
        pyBind (recur ((names.map (pySplit '.')).map (fun x => pyJoin '.' x.tail))
          start stop damping)
          (fun sub => some (Except.ok (insertAll
            (pySorted strLe ((names.map (pySplit '.')).map List.headI).dedup).headI
            sub []))) := by
      simp only [color_labelMain]
      rw [if_pos hfl1]
    cases r' with
    | error e =>
      refine ⟨Except.error e, ?_, ?_⟩
      · rw [heq, hr'']
        rfl
      · intro hdamp
        obtain ⟨d', hd', -⟩ := hr'k hdamp
        cases hd'
    | ok sub =>
      refine ⟨Except.ok (insertAll w sub []), ?_, ?_⟩
      · rw [heq, hr'', hw]
        rfl
      · intro hdamp
        obtain ⟨d', hd', hk⟩ := hr'k hdamp
        injection hd' with hsub
        subst hsub
        refine ⟨insertAll w sub [], rfl, ?_⟩
        intro k
        rw [pyKeys_insertAll]
        constructor
        · rintro (h | ⟨k', hk', rfl⟩)
          · rw [show pyKeys ([] : PyDict PyStr) = [] from rfl] at h
            cases h
          · obtain ⟨x, hx, rfl⟩ := List.mem_map.mp ((hk k').mp hk')
            rw [← hallw x hx, cat_split x (hVE x hx)]
            exact hx
        · intro hkmem
          right
          refine ⟨pyJoin '.' (pySplit '.' k).tail,
            (hk _).mpr (List.mem_map.mpr ⟨k, hkmem, rfl⟩), ?_⟩
          rw [← hallw k hkmem]
          exact (cat_split k (hVE k hkmem)).symm
  · -- at least two first-level groups
    by_cases hdamp0 : damping = 0
    · -- Python raises ZeroDivisionError computing step; no mapping results
      refine ⟨Except.error PyError.zeroDivisionError, ?_, fun hdamp => absurd hdamp0 hdamp⟩
      simp only [color_labelMain]
      rw [if_neg hfl1, if_pos hdamp0]
    · have hflne : pySorted strLe ((names.map (pySplit '.')).map List.headI).dedup ≠ [] := by
        intro hnil
        obtain ⟨x, hx⟩ := List.exists_mem_of_ne_nil names hne
        have := (hflmem ((pySplit '.' x).headI)).mpr ⟨x, hx, rfl⟩
        rw [hnil] at this
        cases this
      have hfl2 : 2 ≤ (pySorted strLe ((names.map (pySplit '.')).map List.headI).dedup).length := by
        have := List.length_pos.mpr hflne
        omega
      have hgroup : ∀ (w : PyStr),
          ((names.map (pySplit '.')).filter (fun x => x.headI = w)).map
            (fun x => pyJoin '.' x.tail) =
          (names.filter (fun x => (pySplit '.' x).headI = w)).map
            (fun x => pyJoin '.' (pySplit '.' x).tail) := by
        intro w
        rw [List.filter_map, List.map_map]
        rfl
      have hword : ∀ w ∈ pySorted strLe ((names.map (pySplit '.')).map List.headI).dedup,
          ∀ (s₀ s₁ : ℚ),
          ∃ d, recur (((names.map (pySplit '.')).filter (fun x => x.headI = w)).map
              (fun x => pyJoin '.' x.tail)) s₀ s₁ damping = some (Except.ok d) ∧
            ∀ k, k ∈ pyKeys d ↔
              k ∈ ((names.map (pySplit '.')).filter (fun x => x.headI = w)).map
                (fun x => pyJoin '.' x.tail) := by
        intro w hwfl s₀ s₁
        rw [hgroup w]
        have hseg : segCount ((names.filter (fun x => (pySplit '.' x).headI = w)).map
            (fun x => pyJoin '.' (pySplit '.' x).tail)) < segCount names := by
          have hle : segCount ((names.filter (fun x => (pySplit '.' x).headI = w)).map
              (fun x => pyJoin '.' (pySplit '.' x).tail)) ≤
              segCount (names.filter (fun x => (pySplit '.' x).headI = w)) := by
            unfold segCount
            rw [List.map_map]
            apply List.sum_le_sum
            intro x hx
            exact (strip_segLen x (hVE x (List.mem_filter.mp hx).1)).1
          obtain ⟨w', hw', hw'ne⟩ := exists_other_mem hfl2 hflnd w hwfl
          obtain ⟨y, hy, hyw'⟩ := (hflmem w').mp hw'
          have hymem : y ∈ names.filter (fun x => !(decide ((pySplit '.' x).headI = w))) := by
            rw [List.mem_filter]
            refine ⟨hy, ?_⟩
            simp [hyw', hw'ne]
          have hrest : 1 ≤ segCount (names.filter
              (fun x => !(decide ((pySplit '.' x).headI = w)))) := by
            have hlen : 0 < (pySplit '.' y).length := List.length_pos.mpr (pySplit_ne_nil '.' y)
            have hsum := le_sum_of_mem
              (List.mem_map.mpr ⟨y, hymem, rfl⟩ :
                (pySplit '.' y).length ∈ (names.filter
                  (fun x => !(decide ((pySplit '.' x).headI = w)))).map
                  (fun n => (pySplit '.' n).length))
            unfold segCount
            omega
          have hsplit := sum_map_filter_add (fun n => (pySplit '.' n).length)
            (fun x => decide ((pySplit '.' x).headI = w)) names
          unfold segCount at hle hrest ⊢
          omega
        have hve : ∀ z ∈ (names.filter (fun x => (pySplit '.' x).headI = w)).map
            (fun x => pyJoin '.' (pySplit '.' x).tail), validName z ∨ z = [] := by
          intro z hz
          obtain ⟨x, hx, rfl⟩ := List.mem_map.mp hz
          exact strip_VE x (hVE x (List.mem_filter.mp hx).1)
        have hnd' : ((names.filter (fun x => (pySplit '.' x).headI = w)).map
            (fun x => pyJoin '.' (pySplit '.' x).tail)).Nodup := by
          apply List.Nodup.map_on ?_ (hnd.filter _)
          intro x hx y hy hxy
          have hxw : (pySplit '.' x).headI = w := by
            have := (List.mem_filter.mp hx).2
            simpa using this
          have hyw : (pySplit '.' y).headI = w := by
            have := (List.mem_filter.mp hy).2
            simpa using this
          exact strip_inj (hVE x (List.mem_filter.mp hx).1) (hVE y (List.mem_filter.mp hy).1)
            (hxw.trans hyw.symm) hxy
        obtain ⟨r, hr, hrk⟩ := hrec ((names.filter (fun x => (pySplit '.' x).headI = w)).map
          (fun x => pyJoin '.' (pySplit '.' x).tail)) s₀ s₁ hseg hve hnd'
        obtain ⟨d, hd, hk⟩ := hrk hdamp0
        exact ⟨d, hd ▸ hr, hk⟩
      obtain ⟨res, hres, hresk⟩ := color_label_fold_keys recur damping
        (((stop - start) / (names.length : ℚ)) / damping)
        ((damping - 1) * (stop - start) /
          (((pySorted strLe ((names.map (pySplit '.')).map List.headI).dedup).length : ℚ)) /
          damping)
        (names.map (pySplit '.'))
        (pySorted strLe ((names.map (pySplit '.')).map List.headI).dedup)
        ([], start) hword
      refine ⟨Except.ok res.1, ?_, ?_⟩
      · have heq : color_labelMain recur names start stop damping =
            pyBind (colorFold recur damping
              (((stop - start) / (names.length : ℚ)) / damping)
              ((damping - 1) * (stop - start) /
                (((pySorted strLe
                  ((names.map (pySplit '.')).map List.headI).dedup).length : ℚ)) /
                damping)
              (names.map (pySplit '.'))
              (pySorted strLe ((names.map (pySplit '.')).map List.headI).dedup)
              ([], start))
              (fun st => some (Except.ok st.1)) := by
          simp only [color_labelMain]
          rw [if_neg hfl1, if_neg hdamp0]
        rw [heq, hres]
        rfl
      · intro _
        refine ⟨res.1, rfl, ?_⟩
        intro k
        rw [hresk k]
        constructor
        · rintro (h | ⟨w', hw', x, hxgrp, rfl⟩)
          · rw [show pyKeys ((([] : PyDict PyStr), start) : PyDict PyStr × ℚ).1 = []
              from rfl] at h
            cases h
          · obtain ⟨hxmem, hxhead⟩ := List.mem_filter.mp hxgrp
            obtain ⟨x₀, hx₀, rfl⟩ := List.mem_map.mp hxmem
            have hxw : (pySplit '.' x₀).headI = w' := by simpa using hxhead
            rw [← hxw, cat_split x₀ (hVE x₀ hx₀)]
            exact hx₀
        · intro hk
          right
          refine ⟨(pySplit '.' k).headI, (hflmem _).mpr ⟨k, hk, rfl⟩, pySplit '.' k, ?_, ?_⟩
          · rw [List.mem_filter]
            exact ⟨List.mem_map.mpr ⟨k, hk, rfl⟩, by simp⟩
          · exact (cat_split k (hVE k hk)).symm

/-- With fuel exceeding the total segment count, `color_label`'s recursion
terminates on duplicate-free valid-or-empty names (possibly with a
`ZeroDivisionError` at `damping = 0`); whenever `damping ≠ 0` it returns a
mapping whose key set is exactly the input name set. -/
theorem color_labelF_keys :
    ∀ (fuel : Nat) (names : List PyStr) (start stop damping : ℚ),
    (∀ x ∈ names, validName x ∨ x = []) → names.Nodup → segCount names < fuel →
    ∃ r, color_labelF fuel names start stop damping = some r ∧
      (damping ≠ 0 → ∃ d, r = Except.ok d ∧ ∀ k, k ∈ pyKeys d ↔ k ∈ names) := by
  intro fuel
  induction fuel with
  | zero =>
    intro names _ _ _ _ _ hf
    omega
  | succ f ih =>
    intro names start stop damping hVE hnd hf
    by_cases h0 : names = []
    · subst h0
      refine ⟨Except.ok [], ?_, fun _ => ⟨[], rfl, by simp [pyKeys]⟩⟩
      simp [color_labelF]
    · by_cases h1 : names.length = 1
      · obtain ⟨n, rfl⟩ := List.length_eq_one.mp h1
        refine ⟨Except.ok [(n, rgb start)], ?_, fun _ => ⟨[(n, rgb start)], rfl,
          by simp [pyKeys]⟩⟩
        simp [color_labelF]
      · have h2 : 2 ≤ names.length := by
          have := List.length_pos.mpr h0
          omega
        have heq : color_labelF (f + 1) names start stop damping =
            color_labelMain (color_labelF f) names start stop damping := by
          simp only [color_labelF]
          rw [if_neg h0, if_neg h1]
        obtain ⟨r, hr, hrk⟩ := color_labelMain_keys (color_labelF f) names start stop damping
          (fun ns s₀ s₁ hseg hVE' hnd' => ih ns s₀ s₁ damping hVE' hnd' (by omega))
          hVE hnd h2
        exact ⟨r, heq ▸ hr, hrk⟩

/-- `color_label`'s recursion never terminates on `["", ""]`: the single
first-level group strips nothing and the recursion repeats the same input. -/
theorem color_labelF_diverges_empty :
    ∀ (fuel : Nat) (start stop damping : ℚ),
    color_labelF fuel [[], []] start stop damping = none := by
  intro fuel
  induction fuel with
  | zero => intro s t d; rfl
  | succ f ih =>
    intro s t d
    have heq : color_labelF (f + 1) [[], []] s t d =
        pyBind (color_labelF f [[], []] s t d)
          (fun sub => some (Except.ok (insertAll [] sub []))) := rfl
    rw [heq, ih s t d]
    rfl

/-- Claim C8: `color_label`'s recursion terminates (with the canonical fuel)
on every duplicate-free list of well-formed dotted names, whatever the
parameters; distinctness is necessary: on `["a", "a"]` the recursion never
terminates (no amount of fuel returns a result, because the first step
recurses on `["", ""]` forever). -/
theorem C8_color_label_termination :
    (∀ (names : List PyStr) (start stop damping : ℚ),
      (∀ x ∈ names, validName x) → names.Nodup →
      (color_label names start stop damping).isSome = true) ∧
    (∀ (fuel : Nat) (start stop damping : ℚ),
      color_labelF fuel [pys "a", pys "a"] start stop damping = none) := by
  constructor
  · intro names start stop damping hv hnd
    obtain ⟨r, hr, -⟩ := color_labelF_keys (segCount names + 1) names start stop damping
      (fun x hx => Or.inl (hv x hx)) hnd (by omega)
    rw [color_label, hr]
    rfl
  · intro fuel start stop damping
    cases fuel with
    | zero => rfl
    | succ f =>
      have heq : color_labelF (f + 1) [pys "a", pys "a"] start stop damping =
          pyBind (color_labelF f [[], []] start stop damping)
            (fun sub => some (Except.ok (insertAll (pys "a") sub []))) := rfl
      rw [heq, color_labelF_diverges_empty]
      rfl

/-- Claim C8, witness: termination instantiated on the concrete
duplicate-free valid name list `["a", "b.c"]`. -/
theorem C8_color_label_termination_witness :
    (color_label [pys "a", pys "b.c"] 0 1 3).isSome = true :=
  C8_color_label_termination.1 [pys "a", pys "b.c"] 0 1 3 (by decide) (by decide)

/-- Claim C3, counterexample: the claim quantifies over every `damping`, but
at `damping = 0` the Python code raises `ZeroDivisionError` evaluating
`step = ((stop - start) / len(names)) / damping` in the multi-group branch,
so the duplicate-free sorted list of valid dotted names `["a", "b"]` yields
no mapping at all — its key set is not the input name set. -/
theorem C3_color_label_counterexample :
    color_label [pys "a", pys "b"] 0 1 0 =
      some (Except.error PyError.zeroDivisionError) ∧
    (∀ d, color_label [pys "a", pys "b"] 0 1 0 ≠ some (Except.ok d)) := by
  constructor
  · rfl
  · intro d h
    rw [show color_label [pys "a", pys "b"] 0 1 0 =
      some (Except.error PyError.zeroDivisionError) from rfl] at h
    cases h

/-- Claim C3, amended: for every duplicate-free list of well-formed dotted
names and every `start`, `stop` and non-zero `damping`, `color_label`
returns a mapping whose key set is exactly the input name set (at
`damping = 0` it raises `ZeroDivisionError` instead); the empty list yields
the empty mapping and a one-element list `[n]` yields `{n: rgb(start)}` for
every `damping`. -/
theorem C3_color_label_key_set (names : List PyStr) (start stop damping : ℚ)
    (hvalid : ∀ x ∈ names, validName x) (hnd : names.Nodup) :
    (damping ≠ 0 →
      ∃ d, color_label names start stop damping = some (Except.ok d) ∧
        ∀ k, k ∈ pyKeys d ↔ k ∈ names) ∧
    color_label [] start stop damping = some (Except.ok []) ∧
    (∀ n, color_label [n] start stop damping = some (Except.ok [(n, rgb start)])) := by
  refine ⟨?_, rfl, ?_⟩
  · intro hdamp
    obtain ⟨r, hr, hrk⟩ := color_labelF_keys (segCount names + 1) names start stop damping
      (fun x hx => Or.inl (hvalid x hx)) hnd (by omega)
    obtain ⟨d, hd, hk⟩ := hrk hdamp
    refine ⟨d, ?_, hk⟩
    show color_labelF (segCount names + 1) names start stop damping = some (Except.ok d)
    rw [hr, hd]
  · intro n
    show color_labelF (segCount [n] + 1) [n] start stop damping =
      some (Except.ok [(n, rgb start)])
    simp [color_labelF]

/-- Claim C3, witness: the key-set property instantiated on the concrete
sorted duplicate-free name list `["a.b", "c"]` with `damping = 3`. -/
theorem C3_color_label_key_set_witness :
    ∃ d, color_label [pys "a.b", pys "c"] 0 1 3 = some (Except.ok d) ∧
      ∀ k, k ∈ pyKeys d ↔ k ∈ [pys "a.b", pys "c"] :=
  (C3_color_label_key_set [pys "a.b", pys "c"] 0 1 3 (by decide) (by decide)).1 (by decide)
